import Mathlib

/-!
Verification development for the dataset-preparation notebook
(src/eda/touche23-valueeval.ipynb) of the argument-mining-rest-api
repository.

Embedding conventions:
* Texts are modelled as lists of Unicode code points (`Text := List Nat`);
  `textOf` converts a Lean string literal into this form for concrete inputs.
* 64-bit machine arithmetic is modelled with `Nat` reduced modulo `2 ^ 64`.
* The xxHash64 algorithm called by the notebook through
  `xxhash.xxh64_hexdigest(text, seed=42)` is embedded in full, operating on
  the UTF-8 encoding of the text; it was checked against the published
  xxHash test vectors.
* Fallible steps (the `s[0]` character indexing of the notebook, which
  raises `IndexError` on an empty string) are modelled with `Except String`.
-/

/-- A text is a list of Unicode code points. -/
abbrev Text := List Nat

/-- Convert a Lean string to its code-point list, for concrete inputs. -/
def textOf (s : String) : Text := s.data.map Char.toNat

/-! ## xxHash64 (the hash used by `hash_text`, seed 42) -/

/-- The 64-bit modulus. -/
def M64 : Nat := 2 ^ 64

def PRIME64_1 : Nat := 11400714785074694791
def PRIME64_2 : Nat := 14029467366897019727
def PRIME64_3 : Nat := 1609587929392839161
def PRIME64_4 : Nat := 9650029242287828579
def PRIME64_5 : Nat := 2870177450012600261

/-- Rotate a 64-bit value (given as a `Nat` below `2 ^ 64`) left by `r`. -/
def rotl64 (x r : Nat) : Nat := (x * 2 ^ r + x / 2 ^ (64 - r)) % M64

/-- Read a little-endian machine word from a list of bytes. -/
def leWord (bs : List Nat) : Nat := bs.foldr (fun b acc => b + 256 * acc) 0

/-- The xxHash64 lane round. -/
def xxhRound (acc lane : Nat) : Nat :=
  rotl64 ((acc + lane * PRIME64_2) % M64) 31 * PRIME64_1 % M64

/-- The xxHash64 accumulator merge step. -/
def xxhMergeRound (acc v : Nat) : Nat :=
  ((acc ^^^ xxhRound 0 v) * PRIME64_1 + PRIME64_4) % M64

/-- The xxHash64 final avalanche. -/
def xxhAvalanche (acc : Nat) : Nat :=
  let a1 := acc ^^^ acc / 2 ^ 33
  let a2 := a1 * PRIME64_2 % M64
  let a3 := a2 ^^^ a2 / 2 ^ 29
  let a4 := a3 * PRIME64_3 % M64
  a4 ^^^ a4 / 2 ^ 32

/-- Process the 32-byte stripes of the input through the four accumulators. -/
def xxhStripes (input : List Nat) (seed : Nat) : Nat :=
  let v0 : Nat × Nat × Nat × Nat :=
    ((seed + PRIME64_1 + PRIME64_2) % M64, (seed + PRIME64_2) % M64,
     seed % M64, (seed + M64 - PRIME64_1 % M64) % M64)
  let vs := (List.range (input.length / 32)).foldl
    (fun v i =>
      let s := (input.drop (32 * i)).take 32
      (xxhRound v.1 (leWord (s.take 8)),
       xxhRound v.2.1 (leWord ((s.drop 8).take 8)),
       xxhRound v.2.2.1 (leWord ((s.drop 16).take 8)),
       xxhRound v.2.2.2 (leWord ((s.drop 24).take 8)))) v0
  let acc := (rotl64 vs.1 1 + rotl64 vs.2.1 7 + rotl64 vs.2.2.1 12 +
              rotl64 vs.2.2.2 18) % M64
  xxhMergeRound (xxhMergeRound (xxhMergeRound (xxhMergeRound acc vs.1)
    vs.2.1) vs.2.2.1) vs.2.2.2

/-- xxHash64 of a byte list with the given seed. -/
def xxh64 (seed : Nat) (input : List Nat) : Nat :=
  let n := input.length
  let acc0 := if 32 ≤ n then xxhStripes input seed else (seed + PRIME64_5) % M64
  let acc1 := (acc0 + n) % M64
  let rem := input.drop (32 * (n / 32))
  let n8 := rem.length / 8
  let acc2 := (List.range n8).foldl
    (fun acc i =>
      (rotl64 (acc ^^^ xxhRound 0 (leWord ((rem.drop (8 * i)).take 8))) 27 *
        PRIME64_1 + PRIME64_4) % M64) acc1
  let rem4 := rem.drop (8 * n8)
  let acc3 :=
    if 4 ≤ rem4.length then
      (rotl64 (acc2 ^^^ leWord (rem4.take 4) * PRIME64_1 % M64) 23 *
        PRIME64_2 + PRIME64_3) % M64
    else acc2
  let rem1 := if 4 ≤ rem4.length then rem4.drop 4 else rem4
  let acc4 := rem1.foldl
    (fun acc b => rotl64 (acc ^^^ b * PRIME64_5 % M64) 11 * PRIME64_1 % M64)
    acc3
  xxhAvalanche acc4

/-- Code point of the lowercase hex digit for a value below 16. -/
def hexDigitCode (d : Nat) : Nat := if d < 10 then 48 + d else 87 + d

/-- The 16-hex-digit digest of a 64-bit value, as a `Text`. -/
def hexDigest16 (h : Nat) : Text :=
  (List.range 16).map (fun i => hexDigitCode (h / 16 ^ (15 - i) % 16))

/-- UTF-8 encoding of a single code point. -/
def utf8Char (n : Nat) : List Nat :=
  if n < 128 then [n]
  else if n < 2048 then [192 + n / 64, 128 + n % 64]
  else if n < 65536 then [224 + n / 4096, 128 + n / 64 % 64, 128 + n % 64]
  else [240 + n / 262144, 128 + n / 4096 % 64, 128 + n / 64 % 64, 128 + n % 64]

/-- UTF-8 encoding of a text. -/
def utf8 (t : Text) : List Nat := t.flatMap utf8Char

/-- Model of `xxhash.xxh64_hexdigest(text, seed)`: hash the UTF-8 bytes of
the text and render the digest as 16 lowercase hex digits. -/
def xxh64_hexdigest (t : Text) (seed : Nat) : Text := hexDigest16 (xxh64 seed (utf8 t))

example : xxh64 0 (utf8 (textOf "")) = 0xef46db3751d8e999 := by decide
example : xxh64 0 (utf8 (textOf "abc")) = 0x44bc2cf5ad770999 := by decide
example : xxh64 0 (utf8 (textOf "a")) = 0xd24ec4f1a98c6e5b := by decide
example : xxh64 0 (utf8 (textOf "Nobody inspects the spammish repetition")) =
    0xfbcea83c8a378bf1 := by decide
example : xxh64 42 (utf8 (textOf "0123456789abcdef0123456789abcdefXYZ")) =
    0x05f4001354091db1 := by decide
example : xxh64_hexdigest (textOf "abc") 42 = textOf "13c1d910702770e6" := by decide

/-! ## Text helpers (Python string semantics used by the notebook) -/

/-- Python whitespace predicate (the set recognised by str.split and
str.strip: ASCII whitespace, the Unicode space separators, and the line
and paragraph separators). -/
def pyIsSpace (c : Nat) : Bool :=
  (9 ≤ c && c ≤ 13) || (28 ≤ c && c ≤ 32) || c == 133 || c == 160 ||
  c == 5760 || (8192 ≤ c && c ≤ 8202) || c == 8232 || c == 8233 ||
  c == 8239 || c == 8287 || c == 12288

/-- Model of Python str.lower applied per code point. The full Unicode
case table is external library data; the ASCII case mapping, the only one
exercised by the dataset, is modelled. -/
def pyLower (c : Nat) : Nat := if 65 ≤ c && c ≤ 90 then c + 32 else c

/-- Model of the str.lower call: lowercase every code point. -/
def pyLowerText (t : Text) : Text := t.map pyLower

/-- Model of str.strip: drop leading and trailing whitespace. -/
def pyStrip (t : Text) : Text :=
  ((t.dropWhile pyIsSpace).reverse.dropWhile pyIsSpace).reverse

/-- Helper for str.split: walk the text keeping the (reversed) current
word in the accumulator. -/
def splitWsAux : Text → Text → List Text
  | [], acc => if acc.isEmpty then [] else [acc.reverse]
  | c :: cs, acc =>
    if pyIsSpace c then
      if acc.isEmpty then splitWsAux cs [] else acc.reverse :: splitWsAux cs []
    else splitWsAux cs (c :: acc)

/-- Model of Python str.split() with no argument: the list of maximal
whitespace-free words. -/
def pySplit (t : Text) : List Text := splitWsAux t []

/-- Model of hash_text from the notebook:
text = "".join(text.strip().lower().split()); xxh64_hexdigest(text, seed=42). -/
def hash_text (t : Text) : Text :=
  xxh64_hexdigest (pySplit (pyLowerText (pyStrip t))).flatten 42

/-- Modelled from the spec: unicodedata.normalize("NFKD", text), the
Unicode compatibility-decomposition normalization. The decomposition
table is external library data; NFKD is the identity on the modelled
(already decomposed, ASCII) character range, so it is embedded as the
identity map on code points. -/
def nfkd (t : Text) : Text := t

/-- The display text of a node, mirroring
unicodedata.normalize("NFKD", " ".join(text.strip().split())). -/
def displayText (t : Text) : Text :=
  nfkd (List.intercalate [32] (pySplit (pyStrip t)))

/-! ## The data model -/

/-- One raw input row, with the four columns the notebook reads
(Argument ID, Conclusion, Premise, Stance). -/
structure RawRow where
  argumentId : Text
  conclusion : Text
  premise : Text
  stance : Text
deriving DecidableEq, Repr

/-- A row of the concatenated dataset: a raw row tagged with its split. -/
structure Row extends RawRow where
  split : Text
deriving DecidableEq, Repr

/-- Tag every row of one source file with its split label. -/
def withSplit (s : Text) (rows : List RawRow) : List Row :=
  rows.map (fun r => { toRawRow := r, split := s })

/-- Model of the concat cell: tag the three splits and concatenate them
in the order [train_data, test_data, dev_data]. -/
def buildDataset (train_data dev_data test_data : List RawRow) : List Row :=
  withSplit (textOf "train") train_data ++ withSplit (textOf "test") test_data ++
    withSplit (textOf "validation") dev_data

/-- The stance_map dictionary of the notebook. -/
def stance_map : List (Text × Text) :=
  [(textOf "against", textOf "Attack"), (textOf "in favor of", textOf "Support")]

/-- Model of dataset["Stance"].map(stance_map): dictionary lookup, absent
keys give a missing value. -/
def relationOf (s : Text) : Option Text :=
  (stance_map.find? (fun p => p.1 == s)).map (fun p => p.2)

/-- The conclusion_id column: hash_text of the Conclusion. -/
def conclusionId (r : Row) : Text := hash_text r.conclusion

/-- The premise_id column: hash_text of the Premise. -/
def premiseId (r : Row) : Text := hash_text r.premise

/-! ## Grouping (pandas groupby with sorted keys) -/

/-- Append a row to its group, keeping first-encounter key order. -/
def addToGroup : List (Text × List Row) → Text → Row → List (Text × List Row)
  | [], k, r => [(k, [r])]
  | (k0, rs) :: rest, k, r =>
    if k0 = k then (k0, rs ++ [r]) :: rest
    else (k0, rs) :: addToGroup rest k r

/-- Collect the groups of equal conclusion_id, keys in first-encounter
order, rows of a group in original order. -/
def collectGroups (rows : List Row) : List (Text × List Row) :=
  rows.foldl (fun acc r => addToGroup acc (conclusionId r) r) []

/-- Lexicographic order on texts (the order pandas sorts string group
keys by). -/
def lexLe : Text → Text → Bool
  | [], _ => true
  | _ :: _, [] => false
  | a :: as, b :: bs => if a < b then true else if b < a then false else lexLe as bs

/-- Insert a keyed group into a list sorted by key. -/
def insertByKey (p : Text × List Row) : List (Text × List Row) → List (Text × List Row)
  | [] => [p]
  | q :: qs => if lexLe p.1 q.1 then p :: q :: qs else q :: insertByKey p qs

/-- Sort keyed groups by key, ascending. -/
def sortByKey (l : List (Text × List Row)) : List (Text × List Row) :=
  l.foldr insertByKey []

/-- Model of dataset.groupby("conclusion_id"): groups of equal key, keys
iterated in ascending order, rows of a group in original order. -/
def pandasGroupby (rows : List Row) : List (Text × List Row) :=
  sortByKey (collectGroups rows)

/-! ## Node construction and serialization -/

/-- The metadata dictionary of an emitted node. -/
inductive NodeMeta where
  | positionMeta (subdataset : Nat)
  | premiseMeta (argument_id : Text) (subdataset : Nat) (related_to : Text)
      (original_split : Text) (ntype : Option Text)
deriving DecidableEq, Repr

/-- One emitted JSON-lines node. -/
structure Node where
  dataset : Text
  id : Text
  text : Text
  metadata : NodeMeta
deriving DecidableEq, Repr

/-- Build the conclusion (position) node of a group: display text from
the first row's Conclusion, subdataset from the first character of the
first row's Argument ID (IndexError on an empty id). -/
def conclusionNode (conclusion_id : Text) (group : List Row) : Except String Node :=
  match group with
  | [] => .error "empty group"
  | h :: _ =>
    match h.argumentId with
    | [] => .error "string index out of range"
    | c :: _ => .ok { dataset := textOf "touche-23", id := conclusion_id,
                      text := displayText h.conclusion,
                      metadata := .positionMeta c }

/-- Build the premise node of one row (IndexError on an empty id). -/
def premiseNode (conclusion_id : Text) (r : Row) : Except String Node :=
  match r.argumentId with
  | [] => .error "string index out of range"
  | c :: _ => .ok { dataset := textOf "touche-23", id := premiseId r,
                    text := displayText r.premise,
                    metadata := .premiseMeta r.argumentId c conclusion_id
                      r.split (relationOf r.stance) }

/-- Sequence a fallible step over a list, stopping at the first error
(the semantics of the notebook's loops, whose body may raise). -/
def mapExcept (f : α → Except String β) : List α → Except String (List β)
  | [] => .ok []
  | a :: as => do
    let b ← f a
    let bs ← mapExcept f as
    return b :: bs

/-- The nodes of one group: its position node, then one premise node per
row in original order. -/
def groupNodes (g : Text × List Row) : Except String (List Node) := do
  let pos ← conclusionNode g.1 g.2
  let prems ← mapExcept (premiseNode g.1) g.2
  return pos :: prems

/-- Model of the save-dataset cell: iterate the groups, emitting each
group's nodes. -/
def saveDataset (rows : List Row) : Except String (List Node) := do
  let chunks ← mapExcept groupNodes (pandasGroupby rows)
  return chunks.flatten

/-! ## JSON serialization (json.dumps with its default settings) -/

/-- Four lowercase hex digits of a value below 65536. -/
def jsonHex4 (n : Nat) : Text :=
  [hexDigitCode (n / 4096 % 16), hexDigitCode (n / 256 % 16),
   hexDigitCode (n / 16 % 16), hexDigitCode (n % 16)]

/-- Escape of one code point inside a JSON string, as json.dumps produces
with ensure_ascii (code 92 is the backslash, 117 the letter u). -/
def jsonEscapeCode (n : Nat) : Text :=
  if n = 34 then [92, 34]
  else if n = 92 then [92, 92]
  else if n = 8 then [92, 98]
  else if n = 9 then [92, 116]
  else if n = 10 then [92, 110]
  else if n = 12 then [92, 102]
  else if n = 13 then [92, 114]
  else if n < 32 then 92 :: 117 :: jsonHex4 n
  else if n < 127 then [n]
  else if n < 65536 then 92 :: 117 :: jsonHex4 n
  else (92 :: 117 :: jsonHex4 (55296 + (n - 65536) / 1024)) ++
       (92 :: 117 :: jsonHex4 (56320 + (n - 65536) % 1024))

/-- A JSON string literal (34 is the double quote). -/
def jsonString (t : Text) : Text := [34] ++ t.flatMap jsonEscapeCode ++ [34]

/-- One key-value pair of a JSON object. -/
def jsonField (name value : Text) : Text := jsonString name ++ textOf ": " ++ value

/-- A JSON object with the given fields, in insertion order (123 and 125
are the braces). -/
def jsonObj (fields : List Text) : Text :=
  [123] ++ List.intercalate (textOf ", ") fields ++ [125]

/-- Serialization of a node's metadata dictionary. A missing relation
type is the pandas NaN, which json.dumps prints as the bare token NaN. -/
def serializeMeta : NodeMeta → Text
  | .positionMeta c =>
      jsonObj [jsonField (textOf "subdataset") (jsonString [c]),
               jsonField (textOf "type") (jsonString (textOf "Position"))]
  | .premiseMeta aid c rel_to osplit rel =>
      jsonObj [jsonField (textOf "argument_id") (jsonString aid),
               jsonField (textOf "subdataset") (jsonString [c]),
               jsonField (textOf "related_to") (jsonString rel_to),
               jsonField (textOf "original_split") (jsonString osplit),
               jsonField (textOf "type")
                 (match rel with
                  | some t => jsonString t
                  | none => textOf "NaN")]

/-- The json.dumps line of one node. -/
def serializeNode (n : Node) : Text :=
  jsonObj [jsonField (textOf "dataset") (jsonString n.dataset),
           jsonField (textOf "id") (jsonString n.id),
           jsonField (textOf "text") (jsonString n.text),
           jsonField (textOf "metadata") (serializeMeta n.metadata)]

/-- The output file as a list of lines, one per emitted node. -/
def outputLines (rows : List Row) : Except String (List Text) :=
  (saveDataset rows).map (List.map serializeNode)

/-- The whole notebook pipeline, from the three raw input files to the
output lines. -/
def pipeline (train_data dev_data test_data : List RawRow) : Except String (List Text) :=
  outputLines (buildDataset train_data dev_data test_data)

/-! ## Observables and specification-side constructions -/

/-- Whether a node is a PositionNode. -/
def isPositionNode (n : Node) : Bool :=
  match n.metadata with
  | .positionMeta _ => true
  | .premiseMeta _ _ _ _ _ => false

/-- Whether a node is a PremiseNode. -/
def isPremiseNode (n : Node) : Bool :=
  match n.metadata with
  | .positionMeta _ => false
  | .premiseMeta _ _ _ _ _ => true

/-- The related_to field of a premise node (absent on position nodes). -/
def relatedTo (n : Node) : Option Text :=
  match n.metadata with
  | .positionMeta _ => none
  | .premiseMeta _ _ rt _ _ => some rt

/-- The metadata type field: the constant Position for position nodes,
the (possibly missing) relation type for premise nodes. -/
def relTypeOf (n : Node) : Option Text :=
  match n.metadata with
  | .positionMeta _ => some (textOf "Position")
  | .premiseMeta _ _ _ _ t => t

/-- Insert a text into a lexicographically sorted list of texts. -/
def insertText (x : Text) : List Text → List Text
  | [] => [x]
  | y :: ys => if lexLe x y then x :: y :: ys else y :: insertText x ys

/-- Insertion sort of texts by the lexicographic order. -/
def sortText (l : List Text) : List Text := l.foldr insertText []

/-- Strict lexicographic order on texts. -/
def lexLt (a b : Text) : Prop := lexLe a b = true ∧ a ≠ b

/-- Specification-side description of the group keys: the distinct
conclusion ids, in ascending lexicographic order. -/
def specKeys (rows : List Row) : List Text :=
  sortText ((rows.map conclusionId).dedup)

/-- Specification-side description of the groups: for each key in
ascending order, the rows carrying that conclusion id, in their original
encounter order. -/
def specGroups (rows : List Row) : List (Text × List Row) :=
  (specKeys rows).map (fun k => (k, rows.filter (fun r => conclusionId r == k)))

/-- Specification-side description of the output: the groups in
ascending key order, each contributing its position node followed by its
premise nodes. -/
def specOutput (rows : List Row) : Except String (List Node) := do
  let chunks ← mapExcept groupNodes (specGroups rows)
  return chunks.flatten

/-- The normalized form hashed by hash_text: the non-whitespace
characters, lowercased, in order. -/
def cleanedText (t : Text) : Text :=
  (t.filter (fun c => !pyIsSpace c)).map pyLower

/-- Build a concrete row from string literals (for concrete inputs). -/
def mkRow (aid conc prem st sp : String) : Row :=
  { argumentId := textOf aid, conclusion := textOf conc, premise := textOf prem,
    stance := textOf st, split := textOf sp }

/-- Build a concrete raw row from string literals. -/
def mkRaw (aid conc prem st : String) : RawRow :=
  { argumentId := textOf aid, conclusion := textOf conc, premise := textOf prem,
    stance := textOf st }

/-- The two raw training rows behind c1Rows. -/
def c3Train : List RawRow :=
  [mkRaw "A01" "C one" "P one" "against",
   mkRaw "A02" "C one" "P two" "in favor of"]

/-- A concrete two-row input whose rows share one conclusion. -/
def c1Rows : List Row :=
  [mkRow "A01" "C one" "P one" "against" "train",
   mkRow "A02" "C one" "P two" "in favor of" "train"]

/-- The position node of the single group of c1Rows. -/
def c1Pos : Node :=
  ⟨textOf "touche-23", textOf "866e253259592916", textOf "C one",
    .positionMeta 65⟩

/-- The nodes the save-dataset cell emits on c1Rows. -/
def c1Nodes : List Node :=
  [⟨textOf "touche-23", textOf "866e253259592916", textOf "C one",
     .positionMeta 65⟩,
   ⟨textOf "touche-23", textOf "34dee398d62cd103", textOf "P one",
     .premiseMeta (textOf "A01") 65 (textOf "866e253259592916")
       (textOf "train") (some (textOf "Attack"))⟩,
   ⟨textOf "touche-23", textOf "3ce94dcac794f0b2", textOf "P two",
     .premiseMeta (textOf "A02") 65 (textOf "866e253259592916")
       (textOf "train") (some (textOf "Support"))⟩]

/-- A concrete two-row input mixing a mapped and an unmapped stance on
one shared conclusion. -/
def c5Rows : List Row :=
  [mkRow "A01" "C one" "P one" "against" "train",
   mkRow "A02" "C one" "P two" "weird" "train"]

/-- The nodes the save-dataset cell emits on c5Rows: the unmapped-stance
row yields the premise node with the absent relation type. -/
def c5Nodes : List Node :=
  [⟨textOf "touche-23", textOf "866e253259592916", textOf "C one",
     .positionMeta 65⟩,
   ⟨textOf "touche-23", textOf "34dee398d62cd103", textOf "P one",
     .premiseMeta (textOf "A01") 65 (textOf "866e253259592916")
       (textOf "train") (some (textOf "Attack"))⟩,
   ⟨textOf "touche-23", textOf "3ce94dcac794f0b2", textOf "P two",
     .premiseMeta (textOf "A02") 65 (textOf "866e253259592916")
       (textOf "train") none⟩]

/-! ## Characterization of the hash normalization -/

theorem pyIsSpace_iff (c : Nat) : pyIsSpace c = true ↔
    (9 ≤ c ∧ c ≤ 13) ∨ (28 ≤ c ∧ c ≤ 32) ∨ c = 133 ∨ c = 160 ∨ c = 5760 ∨
    (8192 ≤ c ∧ c ≤ 8202) ∨ c = 8232 ∨ c = 8233 ∨ c = 8239 ∨ c = 8287 ∨
    c = 12288 := by
  simp [pyIsSpace, Bool.or_eq_true, Bool.and_eq_true, decide_eq_true_eq,
    beq_iff_eq, or_assoc]

theorem pyIsSpace_pyLower (c : Nat) : pyIsSpace (pyLower c) = pyIsSpace c := by
  rw [Bool.eq_iff_iff, pyIsSpace_iff, pyIsSpace_iff, pyLower]
  by_cases h : (65 ≤ c && c ≤ 90) = true
  · rw [if_pos h]
    simp only [Bool.and_eq_true, decide_eq_true_eq] at h
    constructor <;> intro h1 <;> omega
  · rw [if_neg h]

theorem pyLower_pyLower (c : Nat) : pyLower (pyLower c) = pyLower c := by
  by_cases h : (65 ≤ c && c ≤ 90) = true
  · have hc : pyLower c = c + 32 := by rw [pyLower, if_pos h]
    have h2 : (65 ≤ c + 32 && c + 32 ≤ 90) ≠ true := by
      simp only [ne_eq, Bool.and_eq_true, decide_eq_true_eq] at h ⊢
      omega
    rw [hc, pyLower, if_neg h2]
  · have hc : pyLower c = c := by rw [pyLower, if_neg h]
    rw [hc, hc]

theorem splitWsAux_flatten (l : Text) : ∀ acc : Text,
    (splitWsAux l acc).flatten = acc.reverse ++ l.filter (fun c => !pyIsSpace c) := by
  induction l with
  | nil =>
      intro acc
      simp only [splitWsAux]
      by_cases h : acc.isEmpty
      · simp [List.isEmpty_iff.mp h, h]
      · simp [h]
  | cons c cs ih =>
      intro acc
      by_cases hc : pyIsSpace c
      · by_cases ha : acc.isEmpty
        · simp [splitWsAux, hc, ha, ih, List.isEmpty_iff.mp ha]
        · simp [splitWsAux, hc, ha, ih]
      · simp [splitWsAux, hc, ih]

theorem pySplit_flatten (t : Text) :
    (pySplit t).flatten = t.filter (fun c => !pyIsSpace c) := by
  simp [pySplit, splitWsAux_flatten]

theorem filter_dropWhile_pyIsSpace (l : Text) :
    (l.dropWhile pyIsSpace).filter (fun c => !pyIsSpace c) =
      l.filter (fun c => !pyIsSpace c) := by
  induction l with
  | nil => rfl
  | cons a l ih =>
      by_cases ha : pyIsSpace a
      · simp [List.dropWhile_cons, ha, ih]
      · simp [List.dropWhile_cons, ha]

theorem pyStrip_filter (t : Text) :
    (pyStrip t).filter (fun c => !pyIsSpace c) = t.filter (fun c => !pyIsSpace c) := by
  simp only [pyStrip]
  rw [List.filter_reverse, filter_dropWhile_pyIsSpace, List.filter_reverse,
    List.reverse_reverse, filter_dropWhile_pyIsSpace]

theorem clean_eq (t : Text) :
    (pySplit (pyLowerText (pyStrip t))).flatten = cleanedText t := by
  rw [pySplit_flatten, pyLowerText, List.filter_map]
  have : ((fun c => !pyIsSpace c) ∘ pyLower) = (fun c => !pyIsSpace c) := by
    funext c
    simp [pyIsSpace_pyLower]
  rw [this, pyStrip_filter, cleanedText]

theorem hash_text_eq (t : Text) :
    hash_text t = xxh64_hexdigest (cleanedText t) 42 := by
  rw [hash_text, clean_eq]

theorem clean_eq' (t : Text) :
    (pySplit (pyLowerText t)).flatten = cleanedText t := by
  rw [pySplit_flatten, pyLowerText, List.filter_map]
  have h : ((fun c => !pyIsSpace c) ∘ pyLower) = (fun c => !pyIsSpace c) := by
    funext c
    simp [pyIsSpace_pyLower]
  rw [h, cleanedText]

theorem filter_nonspace_map_pyLower (t : Text) :
    (t.map pyLower).filter (fun c => !pyIsSpace c) =
      (t.filter (fun c => !pyIsSpace c)).map pyLower := by
  rw [List.filter_map]
  have h : ((fun c => !pyIsSpace c) ∘ pyLower) = (fun c => !pyIsSpace c) := by
    funext c
    simp [pyIsSpace_pyLower]
  rw [h]

theorem cleanedText_idem (t : Text) : cleanedText (cleanedText t) = cleanedText t := by
  have hself : (t.filter (fun c => !pyIsSpace c)).filter (fun c => !pyIsSpace c)
      = t.filter (fun c => !pyIsSpace c) := by
    apply List.filter_eq_self.mpr
    intro a ha
    exact (List.mem_filter.mp ha).2
  calc cleanedText (cleanedText t)
      = (((t.filter (fun c => !pyIsSpace c)).map pyLower).filter
          (fun c => !pyIsSpace c)).map pyLower := rfl
    _ = (((t.filter (fun c => !pyIsSpace c)).filter
          (fun c => !pyIsSpace c)).map pyLower).map pyLower := by
        rw [filter_nonspace_map_pyLower]
    _ = ((t.filter (fun c => !pyIsSpace c)).map pyLower).map pyLower := by rw [hself]
    _ = (t.filter (fun c => !pyIsSpace c)).map (pyLower ∘ pyLower) := by
        rw [List.map_map]
    _ = cleanedText t := by
        have : (pyLower ∘ pyLower) = pyLower := by
          funext c
          exact pyLower_pyLower c
        rw [this, cleanedText]

/-- C2: texts whose lowercased word lists agree (that is, texts differing
only in leading or trailing whitespace, letter case, or the length of
internal whitespace runs) receive the same content id; moreover hash_text
is exactly the hash, at the fixed seed 42, of the lowercased text with all
whitespace removed. -/
theorem C2_contentId_case_ws_invariant :
    (∀ a b : Text,
      pySplit (pyLowerText a) = pySplit (pyLowerText b) → hash_text a = hash_text b) ∧
    (∀ t : Text, hash_text t = xxh64_hexdigest (cleanedText t) 42) := by
  refine ⟨?_, hash_text_eq⟩
  intro a b h
  rw [hash_text_eq, hash_text_eq, ← clean_eq', ← clean_eq', h]

/-- Witness for C2 at a concrete pair of texts. -/
theorem C2_witness :
    pySplit (pyLowerText (textOf "  We SHOULD   ban plastic ")) =
      pySplit (pyLowerText (textOf "we should ban plastic")) ∧
    hash_text (textOf "  We SHOULD   ban plastic ") =
      hash_text (textOf "we should ban plastic") :=
  ⟨by decide, C2_contentId_case_ws_invariant.1 _ _ (by decide)⟩

/-- C10: hash_text is invariant under its own normalization (hashing the
trimmed, lowercased, whitespace-free form gives the same id), and every
all-whitespace text gets the id of the empty text. -/
theorem C10_normalization_idempotent :
    (∀ t : Text, hash_text t = hash_text ((pySplit (pyLowerText (pyStrip t))).flatten)) ∧
    (∀ t : Text, (∀ c ∈ t, pyIsSpace c = true) → hash_text t = hash_text ([] : Text)) := by
  constructor
  · intro t
    conv_rhs => rw [clean_eq]
    rw [hash_text_eq, hash_text_eq, cleanedText_idem]
  · intro t h
    have hnil : t.filter (fun c => !pyIsSpace c) = [] := by
      rw [List.filter_eq_nil_iff]
      intro a ha
      simp [h a ha]
    have hc : cleanedText t = cleanedText [] := by simp [cleanedText, hnil]
    rw [hash_text_eq, hash_text_eq, hc]

/-- Witness for C10 at a concrete all-whitespace text. -/
theorem C10_witness :
    (∀ c ∈ textOf "  \t ", pyIsSpace c = true) ∧
    hash_text (textOf "  \t ") = hash_text ([] : Text) :=
  ⟨by decide, C10_normalization_idempotent.2 _ (by decide)⟩

/-! ## The content id cannot separate all texts: 64-bit pigeonhole -/

theorem mod_M64_lt (x : Nat) : x % M64 < M64 :=
  Nat.mod_lt _ (by norm_num [M64])

theorem xor_shift_lt (x k : Nat) (hx : x < M64) : (x ^^^ x / 2 ^ k) < M64 := by
  have h2 : x / 2 ^ k < M64 := lt_of_le_of_lt (Nat.div_le_self _ _) hx
  have hM : M64 = 2 ^ 64 := rfl
  rw [hM] at hx h2 ⊢
  exact Nat.xor_lt_two_pow hx h2

theorem xxhAvalanche_lt (acc : Nat) : xxhAvalanche acc < M64 := by
  simp only [xxhAvalanche]
  exact xor_shift_lt _ _ (mod_M64_lt _)

theorem xxh64_lt (seed : Nat) (input : List Nat) : xxh64 seed input < M64 := by
  simp only [xxh64]
  exact xxhAvalanche_lt _

theorem cleaned_replicate_97 (n : Nat) :
    cleanedText (List.replicate n 97) = List.replicate n 97 := by
  induction n with
  | zero => rfl
  | succ n ih =>
      simp only [cleanedText] at ih
      simp only [cleanedText, List.replicate_succ, List.filter_cons,
        show (!pyIsSpace 97) = true from rfl, if_true, List.map_cons,
        show pyLower 97 = 97 from rfl, ih]

/-- C6 counterexample: the claim that texts differing in actual letters
always receive different content ids is false: by pigeonhole on the
64-bit digest there are two texts made only of the letter a, of different
lengths (hence differing in letters, with different normalized forms),
with the same content id. -/
theorem C6_counterexample : ∃ a b : Text,
    (∀ c ∈ a, c = 97) ∧ (∀ c ∈ b, c = 97) ∧ a.length ≠ b.length ∧
    cleanedText a ≠ cleanedText b ∧ hash_text a = hash_text b := by
  have hcard : Fintype.card (Fin M64) < Fintype.card (Fin (M64 + 1)) := by
    rw [Fintype.card_fin, Fintype.card_fin]
    exact Nat.lt_succ_self _
  obtain ⟨i, j, hne, heq⟩ := Fintype.exists_ne_map_eq_of_card_lt
    (fun i : Fin (M64 + 1) =>
      (⟨xxh64 42 (utf8 (List.replicate (i.1 + 1) 97)), xxh64_lt _ _⟩ : Fin M64))
    hcard
  have hij : i.1 ≠ j.1 := fun hv => hne (Fin.ext hv)
  refine ⟨List.replicate (i.1 + 1) 97, List.replicate (j.1 + 1) 97, ?_, ?_, ?_, ?_, ?_⟩
  · intro c hc
    exact List.eq_of_mem_replicate hc
  · intro c hc
    exact List.eq_of_mem_replicate hc
  · simp only [List.length_replicate]
    omega
  · rw [cleaned_replicate_97, cleaned_replicate_97]
    intro hcontra
    have hlen := congrArg List.length hcontra
    simp only [List.length_replicate] at hlen
    omega
  · rw [hash_text_eq, hash_text_eq, cleaned_replicate_97, cleaned_replicate_97]
    exact congrArg hexDigest16 (congrArg Fin.val heq)

/-- C6 amended: distinct content ids certify a difference beyond
whitespace and letter case (the normalized texts differ); the converse
separation property does not hold in general. -/
theorem C6_amended_separation : ∀ a b : Text,
    hash_text a ≠ hash_text b → cleanedText a ≠ cleanedText b := by
  intro a b h hc
  exact h (by rw [hash_text_eq, hash_text_eq, hc])

/-- Witness for the amended C6 at a concrete pair of texts. -/
theorem C6_amended_witness :
    hash_text (textOf "a") ≠ hash_text (textOf "b") ∧
    cleanedText (textOf "a") ≠ cleanedText (textOf "b") :=
  ⟨by decide, C6_amended_separation _ _ (by decide)⟩

/-- C9: the pipeline is a pure function of the three input row lists: two
runs on identical inputs produce identical output lines (the hash seed is
the constant 42 and no step of the embedding consults any other state). -/
theorem C9_deterministic :
    ∀ t1 d1 e1 t2 d2 e2 : List RawRow, t1 = t2 → d1 = d2 → e1 = e2 →
      pipeline t1 d1 e1 = pipeline t2 d2 e2 := by
  intro t1 d1 e1 t2 d2 e2 h1 h2 h3
  rw [h1, h2, h3]

/-- Witness for C9 at a concrete input. -/
theorem C9_witness :
    pipeline [(⟨textOf "A01", textOf "We should ban plastic",
        textOf "Plastic harms oceans", textOf "in favor of"⟩ : RawRow)] [] [] =
    pipeline [(⟨textOf "A01", textOf "We should ban plastic",
        textOf "Plastic harms oceans", textOf "in favor of"⟩ : RawRow)] [] [] :=
  C9_deterministic _ _ _ _ _ _ rfl rfl rfl

/-! ## The lexicographic key order -/

theorem lexLe_refl (a : Text) : lexLe a a = true := by
  induction a with
  | nil => rfl
  | cons c cs ih => simp [lexLe, lt_irrefl, ih]

theorem lexLe_total (a b : Text) : lexLe a b = true ∨ lexLe b a = true := by
  induction a generalizing b with
  | nil => exact Or.inl rfl
  | cons c cs ih =>
      cases b with
      | nil => exact Or.inr rfl
      | cons d ds =>
          rcases Nat.lt_trichotomy c d with h | h | h
          · exact Or.inl (by simp [lexLe, h])
          · subst h
            rcases ih ds with h2 | h2
            · exact Or.inl (by simp [lexLe, lt_irrefl, h2])
            · exact Or.inr (by simp [lexLe, lt_irrefl, h2])
          · exact Or.inr (by simp [lexLe, h])

theorem lexLe_antisymm : ∀ {a b : Text},
    lexLe a b = true → lexLe b a = true → a = b := by
  intro a
  induction a with
  | nil =>
      intro b h1 h2
      cases b with
      | nil => rfl
      | cons d ds => simp [lexLe] at h2
  | cons c cs ih =>
      intro b h1 h2
      cases b with
      | nil => simp [lexLe] at h1
      | cons d ds =>
          rcases Nat.lt_trichotomy c d with h | h | h
          · exfalso
            simp [lexLe, h, Nat.lt_asymm h] at h2
          · subst h
            simp only [lexLe, lt_irrefl, if_false] at h1 h2
            rw [ih h1 h2]
          · exfalso
            simp [lexLe, h, Nat.lt_asymm h] at h1

theorem lexLe_trans : ∀ {a b c : Text},
    lexLe a b = true → lexLe b c = true → lexLe a c = true := by
  intro a
  induction a with
  | nil => intro b c _ _; rfl
  | cons x xs ih =>
      intro b c h1 h2
      cases b with
      | nil => simp [lexLe] at h1
      | cons y ys =>
          cases c with
          | nil => simp [lexLe] at h2
          | cons z zs =>
              rcases Nat.lt_trichotomy x y with hxy | hxy | hxy
              · rcases Nat.lt_trichotomy y z with hyz | hyz | hyz
                · simp [lexLe, lt_trans hxy hyz]
                · subst hyz
                  simp [lexLe, hxy]
                · exfalso
                  simp [lexLe, hyz, Nat.lt_asymm hyz] at h2
              · subst hxy
                simp only [lexLe, lt_irrefl, if_false] at h1
                rcases Nat.lt_trichotomy x z with hxz | hxz | hxz
                · simp [lexLe, hxz]
                · subst hxz
                  simp only [lexLe, lt_irrefl, if_false] at h2 ⊢
                  exact ih h1 h2
                · exfalso
                  simp [lexLe, hxz, Nat.lt_asymm hxz] at h2
              · exfalso
                simp [lexLe, hxy, Nat.lt_asymm hxy] at h1

/-! ## Sorting the group keys -/

theorem insertText_perm (x : Text) (l : List Text) :
    List.Perm (insertText x l) (x :: l) := by
  induction l with
  | nil => exact List.Perm.refl _
  | cons y ys ih =>
      by_cases h : lexLe x y = true
      · rw [insertText, if_pos h]
      · rw [insertText, if_neg h]
        exact List.Perm.trans (List.Perm.cons y ih) (List.Perm.swap x y ys)

theorem insertText_sorted (x : Text) : ∀ l : List Text,
    l.Sorted (fun a b => lexLe a b = true) →
    (insertText x l).Sorted (fun a b => lexLe a b = true) := by
  intro l
  induction l with
  | nil =>
      intro _
      simp [insertText]
  | cons y ys ih =>
      intro hs
      by_cases h : lexLe x y = true
      · rw [insertText, if_pos h, List.sorted_cons]
        refine ⟨?_, hs⟩
        intro b hb
        rcases List.mem_cons.mp hb with rfl | hb2
        · exact h
        · exact lexLe_trans h ((List.sorted_cons.mp hs).1 b hb2)
      · rw [insertText, if_neg h, List.sorted_cons]
        have hyx : lexLe y x = true := (lexLe_total x y).resolve_left h
        refine ⟨?_, ih (List.sorted_cons.mp hs).2⟩
        intro b hb
        have hmem := (insertText_perm x ys).mem_iff.mp hb
        rcases List.mem_cons.mp hmem with rfl | hb2
        · exact hyx
        · exact (List.sorted_cons.mp hs).1 b hb2

theorem sortText_perm (l : List Text) : List.Perm (sortText l) l := by
  induction l with
  | nil => exact List.Perm.refl _
  | cons x xs ih =>
      exact List.Perm.trans (insertText_perm x (sortText xs)) (List.Perm.cons x ih)

theorem sortText_sorted (l : List Text) :
    (sortText l).Sorted (fun a b => lexLe a b = true) := by
  induction l with
  | nil => simp [sortText]
  | cons x xs ih => exact insertText_sorted x _ ih

theorem insertByKey_map (F : Text → List Row) (k : Text) :
    ∀ ks : List Text,
      insertByKey (k, F k) (ks.map (fun x => (x, F x))) =
        (insertText k ks).map (fun x => (x, F x)) := by
  intro ks
  induction ks with
  | nil => rfl
  | cons y ys ih =>
      by_cases h : lexLe k y = true
      · simp [insertByKey, insertText, h]
      · simp [insertByKey, insertText, h, ih]

theorem sortByKey_map (F : Text → List Row) :
    ∀ ks : List Text,
      sortByKey (ks.map (fun x => (x, F x))) = (sortText ks).map (fun x => (x, F x)) := by
  intro ks
  induction ks with
  | nil => rfl
  | cons y ys ih =>
      show insertByKey (y, F y) (sortByKey (ys.map (fun x => (x, F x)))) = _
      rw [ih]
      exact insertByKey_map F y (sortText ys)


/-! ## Characterization of the groupby -/

theorem addToGroup_map (k : Text) (r : Row) (F : Text → List Row) :
    ∀ ks : List Text, ks.Nodup → (k ∉ ks → F k = []) →
      addToGroup (ks.map (fun x => (x, F x))) k r =
        (if k ∈ ks then ks else ks ++ [k]).map
          (fun x => (x, if x = k then F x ++ [r] else F x)) := by
  intro ks
  induction ks with
  | nil =>
      intro _ hF
      simp [addToGroup, hF (by simp)]
  | cons y ys ih =>
      intro hnd hF
      obtain ⟨hynotys, hnd2⟩ := List.nodup_cons.mp hnd
      by_cases hyk : y = k
      · subst hyk
        simp only [List.map_cons, addToGroup, if_pos rfl, List.mem_cons, true_or,
          if_true]
        congr 1
        apply List.map_congr_left
        intro x hx
        have hxk : ¬(x = y) := fun hc => hynotys (hc ▸ hx)
        simp [hxk]
      · have hF2 : k ∉ ys → F k = [] := by
          intro hk
          apply hF
          intro hc
          rcases List.mem_cons.mp hc with hcy | hcys
          · exact hyk hcy.symm
          · exact hk hcys
        by_cases hk : k ∈ ys
        · simp only [List.map_cons, addToGroup, if_neg hyk, ih hnd2 hF2, if_pos hk,
            List.mem_cons, hk, or_true, if_true]
        · have hknotcons : ¬(k ∈ y :: ys) := by
            intro hc
            rcases List.mem_cons.mp hc with hcy | hcys
            · exact hyk hcy.symm
            · exact hk hcys
          simp only [List.map_cons, addToGroup, if_neg hyk, ih hnd2 hF2, if_neg hk,
            if_neg hknotcons, List.cons_append, List.map_cons]

theorem foldl_addToGroup_spec (pending : List Row) :
    ∀ (processed : List Row) (ks : List Text), ks.Nodup →
      (∀ k, k ∈ ks ↔ k ∈ processed.map conclusionId) →
      ∃ ks' : List Text, ks'.Nodup ∧
        (∀ k, k ∈ ks' ↔ k ∈ (processed ++ pending).map conclusionId) ∧
        pending.foldl (fun acc r => addToGroup acc (conclusionId r) r)
            (ks.map (fun k => (k, processed.filter (fun r => conclusionId r == k)))) =
          ks'.map (fun k => (k, (processed ++ pending).filter
            (fun r => conclusionId r == k))) := by
  induction pending with
  | nil =>
      intro processed ks hnd hmem
      exact ⟨ks, hnd, by simpa using hmem, by simp⟩
  | cons r rest ih =>
      intro processed ks hnd hmem
      have hF : conclusionId r ∉ ks →
          processed.filter (fun r2 => conclusionId r2 == conclusionId r) = [] := by
        intro hknot
        rw [List.filter_eq_nil_iff]
        intro a ha hbeq
        apply hknot
        rw [hmem]
        rw [beq_iff_eq] at hbeq
        exact hbeq ▸ List.mem_map_of_mem conclusionId ha
      have hstep : (fun x => (x, if x = conclusionId r
              then processed.filter (fun r2 => conclusionId r2 == x) ++ [r]
              else processed.filter (fun r2 => conclusionId r2 == x))) =
          (fun x => (x, (processed ++ [r]).filter (fun r2 => conclusionId r2 == x))) := by
        funext x
        rw [List.filter_append]
        by_cases hx : x = conclusionId r
        · subst hx
          simp
        · have : (conclusionId r == x) = false := by
            rw [beq_eq_false_iff_ne]
            exact fun hc => hx hc.symm
          simp [this, hx]
      rw [List.foldl_cons, addToGroup_map (conclusionId r) r _ ks hnd hF, hstep]
      have hnd2 : (if conclusionId r ∈ ks then ks else ks ++ [conclusionId r]).Nodup := by
        by_cases hk : conclusionId r ∈ ks
        · rw [if_pos hk]
          exact hnd
        · rw [if_neg hk]
          rw [List.nodup_append]
          exact ⟨hnd, List.nodup_singleton _, by simpa using hk⟩
      have hmem2 : ∀ k, k ∈ (if conclusionId r ∈ ks then ks else ks ++ [conclusionId r]) ↔
          k ∈ (processed ++ [r]).map conclusionId := by
        intro k
        rw [List.map_append]
        by_cases hk : conclusionId r ∈ ks
        · rw [if_pos hk, List.mem_append]
          constructor
          · intro h2
            exact Or.inl ((hmem k).mp h2)
          · intro h2
            rcases h2 with h2 | h2
            · exact (hmem k).mpr h2
            · simp only [List.map_cons, List.map_nil, List.mem_singleton] at h2
              exact h2 ▸ hk
        · rw [if_neg hk, List.mem_append, List.mem_append]
          simp only [List.mem_singleton, List.map_cons, List.map_nil, hmem k]
      obtain ⟨ks', h1, h2, h3⟩ := ih (processed ++ [r]) _ hnd2 hmem2
      refine ⟨ks', h1, ?_, ?_⟩
      · intro k
        rw [h2 k]
        simp
      · rw [h3]
        simp

theorem collectGroups_spec (rows : List Row) :
    ∃ ks : List Text, ks.Nodup ∧ (∀ k, k ∈ ks ↔ k ∈ rows.map conclusionId) ∧
      collectGroups rows =
        ks.map (fun k => (k, rows.filter (fun r => conclusionId r == k))) := by
  obtain ⟨ks', h1, h2, h3⟩ := foldl_addToGroup_spec rows [] [] List.nodup_nil
    (by simp)
  refine ⟨ks', h1, ?_, ?_⟩
  · intro k
    rw [h2 k]
    simp
  · rw [collectGroups]
    simpa using h3

theorem pandasGroupby_eq (rows : List Row) : pandasGroupby rows = specGroups rows := by
  obtain ⟨ks, hnd, hmem, hcg⟩ := collectGroups_spec rows
  rw [pandasGroupby, hcg, sortByKey_map]
  have hperm : List.Perm ks ((rows.map conclusionId).dedup) := by
    apply (List.perm_ext_iff_of_nodup hnd (List.nodup_dedup _)).mpr
    intro k
    rw [hmem k, List.mem_dedup]
  have hsorted : sortText ks = sortText ((rows.map conclusionId).dedup) := by
    haveI : IsAntisymm Text (fun a b => lexLe a b = true) :=
      ⟨fun _ _ h1 h2 => lexLe_antisymm h1 h2⟩
    exact List.eq_of_perm_of_sorted
      ((sortText_perm ks).trans (hperm.trans (sortText_perm _).symm))
      (sortText_sorted _) (sortText_sorted _)
  rw [hsorted]
  rfl

/-! ## Inversion of the fallible construction steps -/

theorem mapExcept_ok {α β : Type} {f : α → Except String β} :
    ∀ {l : List α} {out : List β}, mapExcept f l = .ok out →
      List.Forall₂ (fun a b => f a = .ok b) l out := by
  intro l
  induction l with
  | nil =>
      intro out h
      simp only [mapExcept] at h
      cases h
      exact List.Forall₂.nil
  | cons a as ih =>
      intro out h
      rw [mapExcept] at h
      cases hfa : f a with
      | error e =>
          rw [hfa] at h
          simp [Bind.bind, Except.bind] at h
      | ok b =>
          rw [hfa] at h
          cases hrest : mapExcept f as with
          | error e =>
              rw [hrest] at h
              simp [Bind.bind, Except.bind] at h
          | ok bs =>
              rw [hrest] at h
              simp only [Bind.bind, Except.bind, pure, Except.pure, Except.ok.injEq] at h
              rw [← h]
              exact List.Forall₂.cons hfa (ih hrest)

theorem mapExcept_ok_of_forall {α β : Type} {f : α → Except String β} :
    ∀ l : List α, (∀ a ∈ l, ∃ b, f a = .ok b) → ∃ out, mapExcept f l = .ok out := by
  intro l
  induction l with
  | nil =>
      intro _
      exact ⟨[], rfl⟩
  | cons a as ih =>
      intro h
      obtain ⟨b, hb⟩ := h a (by simp)
      obtain ⟨bs, hbs⟩ := ih (fun x hx => h x (by simp [hx]))
      refine ⟨b :: bs, ?_⟩
      rw [mapExcept]
      simp [Bind.bind, Except.bind, hb, hbs, pure, Except.pure]

theorem conclusionNode_ok {k : Text} {g : List Row} {n : Node}
    (h : conclusionNode k g = .ok n) :
    ∃ hd rest c0 cs, g = hd :: rest ∧ hd.argumentId = c0 :: cs ∧
      n = { dataset := textOf "touche-23", id := k,
            text := displayText hd.conclusion, metadata := .positionMeta c0 } := by
  cases g with
  | nil => simp [conclusionNode] at h
  | cons hd rest =>
      cases harg : hd.argumentId with
      | nil => simp [conclusionNode, harg] at h
      | cons c0 cs =>
          simp only [conclusionNode, harg, Except.ok.injEq] at h
          exact ⟨hd, rest, c0, cs, rfl, harg, h.symm⟩

theorem premiseNode_ok {k : Text} {r : Row} {n : Node}
    (h : premiseNode k r = .ok n) :
    ∃ c0 cs, r.argumentId = c0 :: cs ∧
      n = { dataset := textOf "touche-23", id := premiseId r,
            text := displayText r.premise,
            metadata := .premiseMeta r.argumentId c0 k r.split
              (relationOf r.stance) } := by
  cases harg : r.argumentId with
  | nil => simp [premiseNode, harg] at h
  | cons c0 cs =>
      simp only [premiseNode, harg, Except.ok.injEq] at h
      exact ⟨c0, cs, rfl, h.symm⟩

theorem groupNodes_ok {k : Text} {g : List Row} {c : List Node}
    (h : groupNodes (k, g) = .ok c) :
    ∃ pos prems, c = pos :: prems ∧ conclusionNode k g = .ok pos ∧
      mapExcept (premiseNode k) g = .ok prems := by
  rw [groupNodes] at h
  cases hc : conclusionNode k g with
  | error e =>
      rw [hc] at h
      simp [Bind.bind, Except.bind] at h
  | ok pos =>
      rw [hc] at h
      cases hp : mapExcept (premiseNode k) g with
      | error e =>
          rw [hp] at h
          simp [Bind.bind, Except.bind] at h
      | ok prems =>
          rw [hp] at h
          simp only [Bind.bind, Except.bind, pure, Except.pure, Except.ok.injEq] at h
          exact ⟨pos, prems, h.symm, rfl, rfl⟩

theorem saveDataset_ok_structure {rows : List Row} {nodes : List Node}
    (h : saveDataset rows = .ok nodes) :
    ∃ chunks, List.Forall₂ (fun g c => groupNodes g = .ok c) (specGroups rows) chunks ∧
      nodes = chunks.flatten := by
  rw [saveDataset, pandasGroupby_eq] at h
  cases hme : mapExcept groupNodes (specGroups rows) with
  | error e =>
      rw [hme] at h
      simp [Bind.bind, Except.bind] at h
  | ok chunks =>
      rw [hme] at h
      simp only [Bind.bind, Except.bind, pure, Except.pure, Except.ok.injEq] at h
      exact ⟨chunks, mapExcept_ok hme, h.symm⟩

theorem specKeys_mem {rows : List Row} {k : Text} :
    k ∈ specKeys rows ↔ k ∈ rows.map conclusionId :=
  ((sortText_perm _).mem_iff).trans (List.mem_dedup)

theorem saveDataset_ok_of_ids {rows : List Row}
    (hids : ∀ r ∈ rows, r.argumentId ≠ []) :
    ∃ nodes, saveDataset rows = .ok nodes := by
  have hgroups : ∀ gp ∈ specGroups rows, ∃ c, groupNodes gp = .ok c := by
    intro gp hgp
    obtain ⟨k, hk, rfl⟩ := List.mem_map.mp hgp
    have hne : rows.filter (fun r => conclusionId r == k) ≠ [] := by
      obtain ⟨r, hr, hcid⟩ := List.mem_map.mp (specKeys_mem.mp hk)
      intro hnil
      have : r ∈ rows.filter (fun r2 => conclusionId r2 == k) :=
        List.mem_filter.mpr ⟨hr, by simp [hcid]⟩
      rw [hnil] at this
      exact List.not_mem_nil r this
    obtain ⟨hd, rest, hcons⟩ := List.exists_cons_of_ne_nil hne
    have hhd : hd ∈ rows := by
      have : hd ∈ rows.filter (fun r2 => conclusionId r2 == k) := by
        rw [hcons]
        simp
      exact (List.mem_filter.mp this).1
    obtain ⟨c0, cs, hc0⟩ := List.exists_cons_of_ne_nil (hids hd hhd)
    have hconc : ∃ pos, conclusionNode k (rows.filter (fun r => conclusionId r == k))
        = .ok pos := by
      rw [hcons, conclusionNode, hc0]
      exact ⟨_, rfl⟩
    obtain ⟨pos, hpos⟩ := hconc
    obtain ⟨prems, hprems⟩ := @mapExcept_ok_of_forall Row Node (premiseNode k)
      (rows.filter (fun r => conclusionId r == k))
      (by
        intro r hr
        obtain ⟨d0, ds, hd0⟩ := List.exists_cons_of_ne_nil
          (hids r (List.mem_filter.mp hr).1)
        exact ⟨{ dataset := textOf "touche-23", id := premiseId r,
                 text := displayText r.premise,
                 metadata := .premiseMeta r.argumentId d0 k r.split
                   (relationOf r.stance) }, by simp [premiseNode, hd0]⟩)
    refine ⟨pos :: prems, ?_⟩
    rw [groupNodes]
    simp [Bind.bind, Except.bind, hpos, hprems, pure, Except.pure]
  obtain ⟨chunks, hchunks⟩ := mapExcept_ok_of_forall (specGroups rows) hgroups
  refine ⟨chunks.flatten, ?_⟩
  rw [saveDataset, pandasGroupby_eq]
  simp [Bind.bind, Except.bind, hchunks, pure, Except.pure]

theorem forall₂_mem_right {α β : Type} {R : α → β → Prop} :
    ∀ {l1 : List α} {l2 : List β}, List.Forall₂ R l1 l2 →
      ∀ b ∈ l2, ∃ a ∈ l1, R a b := by
  intro l1 l2 h
  induction h with
  | nil =>
      intro b hb
      exact absurd hb (List.not_mem_nil b)
  | cons h1 h2 ih =>
      intro b hb
      rcases List.mem_cons.mp hb with rfl | hb2
      · exact ⟨_, by simp, h1⟩
      · obtain ⟨a, ha, hR⟩ := ih b hb2
        exact ⟨a, by simp [ha], hR⟩

/-- C8: every node construction indexes the first character of the row's
Argument ID; with nonempty Argument IDs the whole run succeeds, while a
concrete input holding an empty Argument ID aborts with the out-of-range
error instead of producing nodes. -/
theorem C8_argument_id_indexing :
    (∀ rows : List Row, (∀ r ∈ rows, r.argumentId ≠ []) →
      ∃ nodes, saveDataset rows = .ok nodes) ∧
    saveDataset [mkRow "" "We should ban plastic" "Plastic harms oceans"
        "in favor of" "train"] = .error "string index out of range" := by
  constructor
  · exact fun _ h => saveDataset_ok_of_ids h
  · rfl

/-- Witness for C8 at a concrete input with nonempty Argument IDs. -/
theorem C8_witness :
    (∀ r ∈ [mkRow "A01" "We should ban plastic" "Plastic harms oceans"
        "in favor of" "train"], r.argumentId ≠ []) ∧
    ∃ nodes, saveDataset [mkRow "A01" "We should ban plastic"
        "Plastic harms oceans" "in favor of" "train"] = .ok nodes :=
  ⟨by decide, C8_argument_id_indexing.1 _ (by decide)⟩


/-- C4: groups are iterated in ascending lexicographic order of the
conclusion id values, not original row order; within each group the
output is the position node built from the group's first row followed by
one premise node per row in the rows' original encounter order. This is
captured by the equality of the save-dataset cell with the
specification-side construction over sorted distinct keys and
filter-in-original-order groups, plus strict sortedness of the iterated
keys. -/
theorem C4_output_order :
    (∀ rows : List Row, pandasGroupby rows = specGroups rows) ∧
    (∀ rows : List Row, List.Pairwise lexLt ((pandasGroupby rows).map Prod.fst)) ∧
    (∀ rows : List Row, saveDataset rows = specOutput rows) := by
  refine ⟨pandasGroupby_eq, ?_, ?_⟩
  · intro rows
    rw [pandasGroupby_eq]
    have hkeys : (specGroups rows).map Prod.fst = specKeys rows := by
      rw [specGroups, List.map_map]
      exact List.map_id _
    rw [hkeys]
    have hs : (specKeys rows).Sorted (fun a b => lexLe a b = true) :=
      sortText_sorted _
    have hnd : (specKeys rows).Nodup :=
      ((sortText_perm _).nodup_iff).mpr (List.nodup_dedup _)
    exact hs.and hnd
  · intro rows
    rw [saveDataset, specOutput, pandasGroupby_eq]

theorem count_eq_one_of_mem_nodup {α : Type} [BEq α] [LawfulBEq α] {l : List α}
    {a : α} (hnd : l.Nodup) (ha : a ∈ l) : l.count a = 1 := by
  induction l with
  | nil => cases ha
  | cons b bs ih =>
      obtain ⟨hb, hnd2⟩ := List.nodup_cons.mp hnd
      rw [List.count_cons]
      rcases List.mem_cons.mp ha with rfl | ha2
      · rw [List.count_eq_zero.mpr hb]
        simp
      · rw [ih hnd2 ha2]
        have hba : (b == a) = false := by
          rw [beq_eq_false_iff_ne]
          exact fun hc => hb (hc ▸ ha2)
        simp [hba]

theorem chunk_pos_filter {k : Text} {g : List Row} {c : List Node} (rt : Text)
    (h : groupNodes (k, g) = .ok c) :
    (c.filter (fun m => isPositionNode m && m.id == rt)).length =
      if k = rt then 1 else 0 := by
  obtain ⟨pos, prems, rfl, hpos, hprems⟩ := groupNodes_ok h
  obtain ⟨hd, rest, c0, cs, hg, harg, hpos_eq⟩ := conclusionNode_ok hpos
  have hprems_none : prems.filter (fun m => isPositionNode m && m.id == rt) = [] := by
    rw [List.filter_eq_nil_iff]
    intro m hm
    obtain ⟨r, hr, hR⟩ := forall₂_mem_right (mapExcept_ok hprems) m hm
    obtain ⟨d0, ds, hdr, hm_eq⟩ := premiseNode_ok hR
    rw [hm_eq]
    simp [isPositionNode]
  rw [List.filter_cons, hpos_eq]
  by_cases hkrt : k = rt
  · subst hkrt
    rw [if_pos (by simp [isPositionNode])]
    rw [List.length_cons, hprems_none]
    simp
  · rw [if_neg (by simp [isPositionNode, hkrt])]
    rw [hprems_none]
    simp [hkrt]

theorem flatten_pos_count {gs : List (Text × List Row)} {chunks : List (List Node)}
    (h : List.Forall₂ (fun g c => groupNodes g = .ok c) gs chunks) (rt : Text) :
    ((chunks.flatten).filter (fun m => isPositionNode m && m.id == rt)).length =
      (gs.map Prod.fst).count rt := by
  induction h with
  | nil => rfl
  | @cons g c gs2 chunks2 h1 h2 ih =>
      rw [List.flatten_cons, List.filter_append, List.length_append, ih,
        List.map_cons, List.count_cons, chunk_pos_filter rt h1]
      by_cases hk : g.1 = rt
      · simp [hk]
        omega
      · have : (g.1 == rt) = false := by
          rw [beq_eq_false_iff_ne]
          exact hk
        simp [hk, this]

/-- C1: every emitted premise node carries a non-null related_to equal to
the id of a position node, and each position node id occurs on exactly
one position node of the output, even when several rows share a
conclusion. -/
theorem C1_premise_related_to_position_unique :
    ∀ rows nodes, saveDataset rows = .ok nodes →
      (∀ n ∈ nodes, isPremiseNode n = true →
        ∃ rt, relatedTo n = some rt ∧
          (nodes.filter (fun m => isPositionNode m && m.id == rt)).length = 1) ∧
      (∀ n ∈ nodes, isPositionNode n = true →
        (nodes.filter (fun m => isPositionNode m && m.id == n.id)).length = 1) := by
  intro rows nodes hok
  obtain ⟨chunks, hf2, rfl⟩ := saveDataset_ok_structure hok
  have hkeys_eq : (specGroups rows).map Prod.fst = specKeys rows := by
    rw [specGroups, List.map_map]
    exact List.map_id _
  have hnd : (specKeys rows).Nodup :=
    ((sortText_perm _).nodup_iff).mpr (List.nodup_dedup _)
  constructor
  · intro n hn hprem
    obtain ⟨chunk, hchunk, hnc⟩ := List.mem_flatten.mp hn
    obtain ⟨gp, hgp, hgn⟩ := forall₂_mem_right hf2 chunk hchunk
    obtain ⟨pos, prems, rfl, hpos, hprems⟩ := groupNodes_ok hgn
    rcases List.mem_cons.mp hnc with rfl | hnp
    · obtain ⟨_, _, _, _, _, _, hpos_eq⟩ := conclusionNode_ok hpos
      rw [hpos_eq] at hprem
      simp [isPremiseNode] at hprem
    · obtain ⟨r, hr, hR⟩ := forall₂_mem_right (mapExcept_ok hprems) n hnp
      obtain ⟨c0, cs, harg, hn_eq⟩ := premiseNode_ok hR
      refine ⟨gp.1, ?_, ?_⟩
      · rw [hn_eq]
        rfl
      · rw [flatten_pos_count hf2 gp.1, hkeys_eq]
        apply count_eq_one_of_mem_nodup hnd
        obtain ⟨k, hk, hgp_eq⟩ := List.mem_map.mp hgp
        rw [← hgp_eq]
        exact hk
  · intro n hn hposn
    obtain ⟨chunk, hchunk, hnc⟩ := List.mem_flatten.mp hn
    obtain ⟨gp, hgp, hgn⟩ := forall₂_mem_right hf2 chunk hchunk
    obtain ⟨pos, prems, rfl, hpos, hprems⟩ := groupNodes_ok hgn
    rcases List.mem_cons.mp hnc with rfl | hnp
    · obtain ⟨hd, rest, c0, cs, hg, harg, hpos_eq⟩ := conclusionNode_ok hpos
      rw [flatten_pos_count hf2 n.id, hkeys_eq]
      apply count_eq_one_of_mem_nodup hnd
      have hid : n.id = gp.1 := by rw [hpos_eq]
      rw [hid]
      obtain ⟨k, hk, hgp_eq⟩ := List.mem_map.mp hgp
      rw [← hgp_eq]
      exact hk
    · obtain ⟨r, hr, hR⟩ := forall₂_mem_right (mapExcept_ok hprems) n hnp
      obtain ⟨c0, cs, harg, hn_eq⟩ := premiseNode_ok hR
      rw [hn_eq] at hposn
      simp [isPositionNode] at hposn


/-- Witness for C1 at a concrete two-row input sharing one conclusion. -/
theorem C1_witness :
    saveDataset c1Rows = .ok c1Nodes ∧
    (c1Nodes.filter (fun m => isPositionNode m &&
        m.id == textOf "866e253259592916")).length = 1 :=
  ⟨by rfl,
    (C1_premise_related_to_position_unique c1Rows c1Nodes (by rfl)).2
      ⟨textOf "touche-23", textOf "866e253259592916", textOf "C one",
        .positionMeta 65⟩ (by decide) (by decide)⟩

theorem chunk_prem_filter {k : Text} {g : List Row} {c : List Node}
    (h : groupNodes (k, g) = .ok c) :
    (c.filter isPremiseNode).length = g.length := by
  obtain ⟨pos, prems, rfl, hpos, hprems⟩ := groupNodes_ok h
  obtain ⟨hd, rest, c0, cs, hg, harg, hpos_eq⟩ := conclusionNode_ok hpos
  have hpremall : ∀ m ∈ prems, isPremiseNode m = true := by
    intro m hm
    obtain ⟨r, hr, hR⟩ := forall₂_mem_right (mapExcept_ok hprems) m hm
    obtain ⟨d0, ds, hdr, hm_eq⟩ := premiseNode_ok hR
    rw [hm_eq]
    rfl
  rw [List.filter_cons, hpos_eq]
  rw [if_neg (by simp [isPremiseNode])]
  rw [List.filter_eq_self.mpr hpremall]
  exact ((mapExcept_ok hprems).length_eq).symm

theorem chunk_pos_count {k : Text} {g : List Row} {c : List Node}
    (h : groupNodes (k, g) = .ok c) :
    (c.filter isPositionNode).length = 1 := by
  obtain ⟨pos, prems, rfl, hpos, hprems⟩ := groupNodes_ok h
  obtain ⟨hd, rest, c0, cs, hg, harg, hpos_eq⟩ := conclusionNode_ok hpos
  have hpremnone : prems.filter isPositionNode = [] := by
    rw [List.filter_eq_nil_iff]
    intro m hm
    obtain ⟨r, hr, hR⟩ := forall₂_mem_right (mapExcept_ok hprems) m hm
    obtain ⟨d0, ds, hdr, hm_eq⟩ := premiseNode_ok hR
    rw [hm_eq]
    simp [isPositionNode]
  rw [List.filter_cons, hpos_eq]
  rw [if_pos (by simp [isPositionNode])]
  rw [List.length_cons, hpremnone]
  rfl

theorem flatten_prem_count {gs : List (Text × List Row)} {chunks : List (List Node)}
    (h : List.Forall₂ (fun g c => groupNodes g = .ok c) gs chunks) :
    ((chunks.flatten).filter isPremiseNode).length =
      (gs.map (fun g => g.2.length)).sum := by
  induction h with
  | nil => rfl
  | @cons g c gs2 chunks2 h1 h2 ih =>
      rw [List.flatten_cons, List.filter_append, List.length_append, ih,
        List.map_cons, List.sum_cons, chunk_prem_filter h1]

theorem flatten_pos_total {gs : List (Text × List Row)} {chunks : List (List Node)}
    (h : List.Forall₂ (fun g c => groupNodes g = .ok c) gs chunks) :
    ((chunks.flatten).filter isPositionNode).length = gs.length := by
  induction h with
  | nil => rfl
  | @cons g c gs2 chunks2 h1 h2 ih =>
      rw [List.flatten_cons, List.filter_append, List.length_append, ih,
        List.length_cons, chunk_pos_count h1]
      omega

theorem dedup_length_map {α β : Type} [DecidableEq α] [DecidableEq β] (g : α → β) :
    ∀ l : List α, (∀ x ∈ l, ∀ y ∈ l, g x = g y → x = y) →
      ((l.map g).dedup).length = l.dedup.length := by
  intro l
  induction l with
  | nil => intro _; rfl
  | cons a l ih =>
      intro hinj
      have hmem : g a ∈ l.map g ↔ a ∈ l := by
        constructor
        · intro h
          obtain ⟨b, hb, hgb⟩ := List.mem_map.mp h
          have hba := hinj b (List.mem_cons_of_mem a hb) a (List.mem_cons_self a l) hgb
          exact hba ▸ hb
        · intro h
          exact List.mem_map_of_mem g h
      have hinj2 : ∀ x ∈ l, ∀ y ∈ l, g x = g y → x = y := fun x hx y hy =>
        hinj x (List.mem_cons_of_mem a hx) y (List.mem_cons_of_mem a hy)
      rw [List.map_cons]
      by_cases ha : a ∈ l
      · rw [List.dedup_cons_of_mem (hmem.mpr ha), List.dedup_cons_of_mem ha]
        exact ih hinj2
      · rw [List.dedup_cons_of_not_mem (fun h => ha (hmem.mp h)),
          List.dedup_cons_of_not_mem ha, List.length_cons, List.length_cons,
          ih hinj2]

theorem filter_count_key (rows : List Row) (k : Text) :
    (rows.filter (fun r => conclusionId r == k)).length =
      (rows.map conclusionId).count k := by
  rw [← List.countP_eq_length_filter, List.count, List.countP_map]
  rfl

theorem count_beq_eq (L : List Text) (k : Text) :
    @List.count Text instBEqOfDecidableEq k L = L.count k := by
  induction L with
  | nil => rfl
  | cons a L ih =>
      rw [@List.count_cons Text instBEqOfDecidableEq k a L,
        @List.count_cons Text List.instBEq k a L, ih]
      by_cases h : a = k <;> simp [h]

/-- C3: one premise node per input row (across the three concatenated
source files) and one position node per distinct normalized conclusion
text, the latter under the no-collision assumption the spec takes for the
hash (section 8); every output node is one of the two kinds. -/
theorem C3_node_counts :
    ∀ (train_data dev_data test_data : List RawRow) nodes,
      saveDataset (buildDataset train_data dev_data test_data) = .ok nodes →
      (∀ r1 ∈ buildDataset train_data dev_data test_data,
        ∀ r2 ∈ buildDataset train_data dev_data test_data,
          hash_text r1.conclusion = hash_text r2.conclusion →
            cleanedText r1.conclusion = cleanedText r2.conclusion) →
      (nodes.filter isPremiseNode).length =
        train_data.length + dev_data.length + test_data.length ∧
      (nodes.filter isPositionNode).length =
        (((buildDataset train_data dev_data test_data).map
            (fun r => cleanedText r.conclusion)).dedup).length ∧
      nodes.length =
        (nodes.filter isPositionNode).length + (nodes.filter isPremiseNode).length := by
  intro train_data dev_data test_data nodes hok hinj
  set rows := buildDataset train_data dev_data test_data with hrows
  obtain ⟨chunks, hf2, rfl⟩ := saveDataset_ok_structure hok
  refine ⟨?_, ?_, ?_⟩
  · rw [flatten_prem_count hf2, specGroups, List.map_map]
    have hcomp : ((fun g : Text × List Row => g.2.length) ∘
        fun k => (k, rows.filter (fun r => conclusionId r == k))) =
        fun k => (rows.map conclusionId).count k := by
      funext k
      exact filter_count_key rows k
    rw [hcomp, specKeys]
    have hconv : (fun k => (rows.map conclusionId).count k) =
        fun k => @List.count Text instBEqOfDecidableEq k (rows.map conclusionId) := by
      funext k
      exact (count_beq_eq _ k).symm
    rw [hconv]
    have hperm := ((sortText_perm ((rows.map conclusionId).dedup)).map
      (fun k => @List.count Text instBEqOfDecidableEq k (rows.map conclusionId)))
    rw [hperm.sum_eq, List.sum_map_count_dedup_eq_length, List.length_map, hrows]
    simp [buildDataset, withSplit]
    omega
  · rw [flatten_pos_total hf2, specGroups, List.length_map]
    have h1 : (specKeys rows).length = ((rows.map conclusionId).dedup).length :=
      (sortText_perm _).length_eq
    rw [h1]
    have hmapeq : rows.map conclusionId =
        (rows.map (fun r => cleanedText r.conclusion)).map
          (fun u => xxh64_hexdigest u 42) := by
      rw [List.map_map]
      apply List.map_congr_left
      intro r _
      exact hash_text_eq r.conclusion
    rw [hmapeq]
    apply dedup_length_map
    intro x hx y hy hgxy
    obtain ⟨r1, hr1, hx_eq⟩ := List.mem_map.mp hx
    obtain ⟨r2, hr2, hy_eq⟩ := List.mem_map.mp hy
    rw [← hx_eq, ← hy_eq]
    apply hinj r1 hr1 r2 hr2
    rw [hash_text_eq, hash_text_eq, hx_eq, hy_eq]
    exact hgxy
  · have hxor : ∀ n ∈ chunks.flatten, isPremiseNode n = !isPositionNode n := by
      intro n _
      cases hm : n.metadata <;> simp [isPremiseNode, isPositionNode, hm]
    rw [List.filter_congr hxor]
    exact List.length_eq_length_filter_add _

/-- Witness for C3 at a concrete two-row train split. -/
theorem C3_witness :
    (∀ r1 ∈ buildDataset c3Train [] [], ∀ r2 ∈ buildDataset c3Train [] [],
      hash_text r1.conclusion = hash_text r2.conclusion →
        cleanedText r1.conclusion = cleanedText r2.conclusion) ∧
    (c1Nodes.filter isPremiseNode).length = 2 ∧
    (c1Nodes.filter isPositionNode).length = 1 :=
  ⟨by decide,
    (C3_node_counts c3Train [] [] c1Nodes (by rfl) (by decide)).1,
    (C3_node_counts c3Train [] [] c1Nodes (by rfl) (by decide)).2.1⟩

/-! ## Display text provenance -/

theorem mem_of_mem_intersperse {s : Text} :
    ∀ {ws : List Text} {w : Text}, w ∈ List.intersperse s ws → w = s ∨ w ∈ ws := by
  intro ws
  induction ws with
  | nil =>
      intro w hw
      simp [List.intersperse] at hw
  | cons a tail ih =>
      intro w hw
      cases tail with
      | nil =>
          simp [List.intersperse] at hw
          exact Or.inr (by simp [hw])
      | cons b t2 =>
          rw [show List.intersperse s (a :: b :: t2) =
              a :: s :: List.intersperse s (b :: t2) from rfl] at hw
          rcases List.mem_cons.mp hw with rfl | hw2
          · exact Or.inr (List.mem_cons_self _ _)
          · rcases List.mem_cons.mp hw2 with rfl | hw3
            · exact Or.inl rfl
            · rcases ih hw3 with h | h
              · exact Or.inl h
              · exact Or.inr (List.mem_cons_of_mem a h)

theorem splitWsAux_chars :
    ∀ (l acc w : Text) (c : Nat), w ∈ splitWsAux l acc → c ∈ w →
      c ∈ acc ∨ c ∈ l := by
  intro l
  induction l with
  | nil =>
      intro acc w c hw hc
      by_cases h : acc.isEmpty
      · simp [splitWsAux, h] at hw
      · simp [splitWsAux, h] at hw
        subst hw
        exact Or.inl (List.mem_reverse.mp hc)
  | cons d ds ih =>
      intro acc w c hw hc
      have hunfold : splitWsAux (d :: ds) acc =
          if pyIsSpace d then
            (if acc.isEmpty then splitWsAux ds []
             else acc.reverse :: splitWsAux ds [])
          else splitWsAux ds (d :: acc) := rfl
      rw [hunfold] at hw
      by_cases hd : pyIsSpace d
      · rw [if_pos hd] at hw
        by_cases ha : acc.isEmpty
        · rw [if_pos ha] at hw
          rcases ih [] w c hw hc with h | h
          · exact absurd h (List.not_mem_nil c)
          · exact Or.inr (List.mem_cons_of_mem d h)
        · rw [if_neg ha] at hw
          rcases List.mem_cons.mp hw with rfl | hw2
          · exact Or.inl (List.mem_reverse.mp hc)
          · rcases ih [] w c hw2 hc with h | h
            · exact absurd h (List.not_mem_nil c)
            · exact Or.inr (List.mem_cons_of_mem d h)
      · rw [if_neg hd] at hw
        rcases ih (d :: acc) w c hw hc with h | h
        · rcases List.mem_cons.mp h with rfl | h2
          · exact Or.inr (List.mem_cons_self _ _)
          · exact Or.inl h2
        · exact Or.inr (List.mem_cons_of_mem d h)

theorem mem_of_mem_pyStrip {t : Text} {c : Nat} (h : c ∈ pyStrip t) : c ∈ t := by
  rw [pyStrip, List.mem_reverse] at h
  have h2 := (List.dropWhile_sublist _).subset h
  rw [List.mem_reverse] at h2
  exact (List.dropWhile_sublist _).subset h2

theorem displayText_chars (t : Text) : ∀ c ∈ displayText t, c = 32 ∨ c ∈ t := by
  intro c hc
  simp only [displayText, nfkd] at hc
  rw [show List.intercalate [32] (pySplit (pyStrip t)) =
      (List.intersperse [32] (pySplit (pyStrip t))).flatten from rfl] at hc
  obtain ⟨w, hw, hcw⟩ := List.mem_flatten.mp hc
  rcases mem_of_mem_intersperse hw with rfl | hw2
  · rcases List.mem_cons.mp hcw with rfl | h2
    · exact Or.inl rfl
    · exact absurd h2 (List.not_mem_nil c)
  · rcases splitWsAux_chars (pyStrip t) [] w c hw2 hcw with h | h
    · exact absurd h (List.not_mem_nil c)
    · exact Or.inr (mem_of_mem_pyStrip h)

/-- C7: every emitted node's text field is the NFKD normalization of the
whitespace-collapsed trimmed original text of its source row, with every
character taken from the original (casing preserved; only the single
space separator is introduced), while the node's id is the content hash
of the original text, so the display form is never the identity key. -/
theorem C7_display_text :
    (∀ rows nodes, saveDataset rows = .ok nodes → ∀ n ∈ nodes,
      ∃ r ∈ rows,
        (isPositionNode n = true ∧
          n.text = nfkd (List.intercalate [32] (pySplit (pyStrip r.conclusion))) ∧
          n.id = hash_text r.conclusion) ∨
        (isPremiseNode n = true ∧
          n.text = nfkd (List.intercalate [32] (pySplit (pyStrip r.premise))) ∧
          n.id = hash_text r.premise)) ∧
    (∀ t : Text, ∀ c ∈ displayText t, c = 32 ∨ c ∈ t) := by
  refine ⟨?_, displayText_chars⟩
  intro rows nodes hok n hn
  obtain ⟨chunks, hf2, rfl⟩ := saveDataset_ok_structure hok
  obtain ⟨chunk, hchunk, hnc⟩ := List.mem_flatten.mp hn
  obtain ⟨gp, hgp, hgn⟩ := forall₂_mem_right hf2 chunk hchunk
  obtain ⟨pos, prems, rfl, hpos, hprems⟩ := groupNodes_ok hgn
  obtain ⟨k, hk, hgp_eq⟩ := List.mem_map.mp hgp
  rcases List.mem_cons.mp hnc with rfl | hnp
  · obtain ⟨hd, rest, c0, cs, hg, harg, hpos_eq⟩ := conclusionNode_ok hpos
    have hhd_filter : hd ∈ gp.2 := by
      rw [hg]
      simp
    rw [← hgp_eq] at hhd_filter
    have hhd_in : hd ∈ rows := (List.mem_filter.mp hhd_filter).1
    have hhd_id : conclusionId hd = k :=
      beq_iff_eq.mp (List.mem_filter.mp hhd_filter).2
    refine ⟨hd, hhd_in, Or.inl ⟨?_, ?_, ?_⟩⟩
    · rw [hpos_eq]
      rfl
    · rw [hpos_eq]
      rfl
    · rw [hpos_eq]
      show gp.1 = hash_text hd.conclusion
      rw [← hgp_eq, ← hhd_id]
      rfl
  · obtain ⟨r, hr, hR⟩ := forall₂_mem_right (mapExcept_ok hprems) n hnp
    obtain ⟨c0, cs, harg, hn_eq⟩ := premiseNode_ok hR
    rw [← hgp_eq] at hr
    refine ⟨r, (List.mem_filter.mp hr).1, Or.inr ⟨?_, ?_, ?_⟩⟩
    · rw [hn_eq]
      rfl
    · rw [hn_eq]
      rfl
    · rw [hn_eq]
      rfl

/-- Witness for C7 at the concrete position node of c1Rows. -/
theorem C7_witness :
    saveDataset c1Rows = .ok c1Nodes ∧
    ∃ r ∈ c1Rows,
      (isPositionNode c1Pos = true ∧
        c1Pos.text = nfkd (List.intercalate [32] (pySplit (pyStrip r.conclusion))) ∧
        c1Pos.id = hash_text r.conclusion) ∨
      (isPremiseNode c1Pos = true ∧
        c1Pos.text = nfkd (List.intercalate [32] (pySplit (pyStrip r.premise))) ∧
        c1Pos.id = hash_text r.premise) :=
  ⟨by rfl, C7_display_text.1 c1Rows c1Nodes (by rfl) c1Pos (by decide)⟩

/-! ## Per-row relation of the emitted premise nodes -/

theorem forall₂_append {α β : Type} {R : α → β → Prop} :
    ∀ {a : List α} {b : List β} {c : List α} {d : List β},
      List.Forall₂ R a b → List.Forall₂ R c d → List.Forall₂ R (a ++ c) (b ++ d) := by
  intro a b c d h1 h2
  induction h1 with
  | nil => exact h2
  | cons hh ht ih => exact List.Forall₂.cons hh ih

theorem chunk_prem_filter_keyed {k2 : Text} {g : List Row} {c : List Node} (k : Text)
    (h : groupNodes (k2, g) = .ok c) :
    List.Forall₂ (fun r n => isPremiseNode n = true ∧ relTypeOf n = relationOf r.stance)
      (if k2 = k then g else [])
      (c.filter (fun n => isPremiseNode n && decide (relatedTo n = some k))) := by
  obtain ⟨pos, prems, rfl, hpos, hprems⟩ := groupNodes_ok h
  obtain ⟨hd, rest, c0, cs, hg, harg, hpos_eq⟩ := conclusionNode_ok hpos
  have hall := mapExcept_ok hprems
  have hceq : (pos :: prems).filter
      (fun n => isPremiseNode n && decide (relatedTo n = some k)) =
      prems.filter (fun n => isPremiseNode n && decide (relatedTo n = some k)) := by
    have hpred : (isPremiseNode pos && decide (relatedTo pos = some k)) = false := by
      rw [hpos_eq]
      simp [isPremiseNode]
    rw [List.filter_cons, hpred]
    simp
  rw [hceq]
  by_cases hk : k2 = k
  · subst hk
    rw [if_pos rfl]
    have hfilter : prems.filter
        (fun n => isPremiseNode n && decide (relatedTo n = some k2)) = prems := by
      apply List.filter_eq_self.mpr
      intro m hm
      obtain ⟨r, hr, hR⟩ := forall₂_mem_right hall m hm
      obtain ⟨d0, ds, hdr, hm_eq⟩ := premiseNode_ok hR
      rw [hm_eq]
      simp [isPremiseNode, relatedTo]
    rw [hfilter]
    refine List.Forall₂.imp ?_ hall
    intro r n hrn
    obtain ⟨d0, ds, hdr, hn_eq⟩ := premiseNode_ok hrn
    rw [hn_eq]
    exact ⟨rfl, rfl⟩
  · rw [if_neg hk]
    have hfilter : prems.filter
        (fun n => isPremiseNode n && decide (relatedTo n = some k)) = [] := by
      rw [List.filter_eq_nil_iff]
      intro m hm
      obtain ⟨r, hr, hR⟩ := forall₂_mem_right hall m hm
      obtain ⟨d0, ds, hdr, hm_eq⟩ := premiseNode_ok hR
      rw [hm_eq]
      simp [isPremiseNode, relatedTo, hk]
    rw [hfilter]
    exact List.Forall₂.nil

theorem flatten_prem_filter_keyed {gs : List (Text × List Row)}
    {chunks : List (List Node)}
    (hall : List.Forall₂ (fun g c => groupNodes g = .ok c) gs chunks) (k : Text) :
    List.Forall₂ (fun r n => isPremiseNode n = true ∧ relTypeOf n = relationOf r.stance)
      (gs.flatMap (fun g => if g.1 = k then g.2 else []))
      (chunks.flatten.filter
        (fun n => isPremiseNode n && decide (relatedTo n = some k))) := by
  induction hall with
  | nil => exact List.Forall₂.nil
  | @cons g c gs2 chunks2 h1 h2 ih =>
      rw [List.flatMap_cons, List.flatten_cons, List.filter_append]
      exact forall₂_append (chunk_prem_filter_keyed k h1) ih

theorem flatMap_if_nil (F : Text → List Row) (k : Text) :
    ∀ ks : List Text, k ∉ ks →
      ks.flatMap (fun k2 => if k2 = k then F k2 else []) = [] := by
  intro ks
  induction ks with
  | nil => intro _; rfl
  | cons a ks ih =>
      intro hmem
      have hak : ¬(a = k) :=
        fun h => hmem (List.mem_cons.mpr (Or.inl h.symm))
      rw [List.flatMap_cons, if_neg hak,
        ih (fun h2 => hmem (List.mem_cons_of_mem a h2))]
      rfl

theorem flatMap_if_eq (F : Text → List Row) (k : Text) :
    ∀ ks : List Text, ks.Nodup → k ∈ ks →
      ks.flatMap (fun k2 => if k2 = k then F k2 else []) = F k := by
  intro ks
  induction ks with
  | nil =>
      intro _ h
      exact absurd h (List.not_mem_nil k)
  | cons a ks ih =>
      intro hnd hmem
      obtain ⟨hanotin, hnd2⟩ := List.nodup_cons.mp hnd
      rw [List.flatMap_cons]
      by_cases hak : a = k
      · subst hak
        rw [if_pos rfl, flatMap_if_nil F a ks hanotin, List.append_nil]
      · have hkmem : k ∈ ks := by
          rcases List.mem_cons.mp hmem with h | h
          · exact absurd h.symm hak
          · exact h
        rw [if_neg hak, ih hnd2 hkmem, List.nil_append]

theorem specGroups_flatMap_key (rows : List Row) (k : Text) :
    (specGroups rows).flatMap (fun g => if g.1 = k then g.2 else []) =
      rows.filter (fun r => conclusionId r == k) := by
  have hnd : (specKeys rows).Nodup :=
    ((sortText_perm _).nodup_iff).mpr (List.nodup_dedup _)
  rw [specGroups, List.flatMap_map]
  by_cases hk : k ∈ specKeys rows
  · exact flatMap_if_eq (fun k2 => rows.filter (fun r => conclusionId r == k2)) k
      (specKeys rows) hnd hk
  · have h0 := flatMap_if_nil (fun k2 => rows.filter (fun r => conclusionId r == k2)) k
      (specKeys rows) hk
    have h1 : rows.filter (fun r => conclusionId r == k) = [] := by
      rw [List.filter_eq_nil_iff]
      intro r hr hbeq
      apply hk
      rw [beq_iff_eq] at hbeq
      exact specKeys_mem.mpr (hbeq ▸ List.mem_map_of_mem conclusionId hr)
    exact h0.trans h1.symm

/-- C5: the relation type is the pure two-entry stance lookup (against
to Attack, in favor of to Support, anything else absent); the premise
node built from a row carries the lookup of that row's own stance, and
in the output the premise nodes of every group correspond one-to-one,
in order, to the group's rows, each carrying the relation of its own
row — so an unmapped stance yields an absent relation type for that
row's node, and no error is raised. -/
theorem C5_stance_mapping :
    (∀ s : Text, relationOf s =
      if s = textOf "against" then some (textOf "Attack")
      else if s = textOf "in favor of" then some (textOf "Support") else none) ∧
    (∀ k r n, premiseNode k r = .ok n → relTypeOf n = relationOf r.stance) ∧
    (∀ rows nodes, saveDataset rows = .ok nodes → ∀ k,
      List.Forall₂
        (fun r n => isPremiseNode n = true ∧ relTypeOf n = relationOf r.stance)
        (rows.filter (fun r => conclusionId r == k))
        (nodes.filter (fun n => isPremiseNode n && decide (relatedTo n = some k)))) ∧
    (∀ rows : List Row, (∀ r ∈ rows, r.argumentId ≠ []) →
      ∃ nodes, saveDataset rows = .ok nodes) := by
  refine ⟨?_, ?_, ?_, fun _ h => saveDataset_ok_of_ids h⟩
  · intro s
    by_cases h1 : s = textOf "against"
    · subst h1
      decide
    · by_cases h2 : s = textOf "in favor of"
      · subst h2
        decide
      · rw [if_neg h1, if_neg h2]
        have hb1 : (textOf "against" == s) = false := by
          rw [beq_eq_false_iff_ne]
          exact fun hc => h1 hc.symm
        have hb2 : (textOf "in favor of" == s) = false := by
          rw [beq_eq_false_iff_ne]
          exact fun hc => h2 hc.symm
        simp [relationOf, stance_map, List.find?, hb1, hb2]
  · intro k r n h
    obtain ⟨c0, cs, harg, hn_eq⟩ := premiseNode_ok h
    rw [hn_eq]
    rfl
  · intro rows nodes hok k
    obtain ⟨chunks, hf2, rfl⟩ := saveDataset_ok_structure hok
    have h := flatten_prem_filter_keyed hf2 k
    rw [specGroups_flatMap_key rows k] at h
    exact h

/-- Witness for C5 at a concrete input mixing a mapped and an unmapped
stance on one shared conclusion: the unmapped row's own node carries the
absent relation type while the mapped row's node carries Attack. -/
theorem C5_witness :
    relationOf (textOf "weird") = none ∧
    saveDataset c5Rows = .ok c5Nodes ∧
    List.Forall₂
      (fun r n => isPremiseNode n = true ∧ relTypeOf n = relationOf r.stance)
      (c5Rows.filter (fun r => conclusionId r == textOf "866e253259592916"))
      (c5Nodes.filter (fun n => isPremiseNode n &&
        decide (relatedTo n = some (textOf "866e253259592916")))) :=
  ⟨(C5_stance_mapping.1 (textOf "weird")).trans (by decide),
   by rfl,
   C5_stance_mapping.2.2.1 c5Rows c5Nodes (by rfl) (textOf "866e253259592916")⟩
